import Mathlib

/-!
Shallow embedding of the code-sorting puzzle engine in `main.py`.
Python strings are modelled as lists of characters (`Str`); lines keep their
terminators. The Qt / OS boundary (list-widget contents, file system, random
source, external compiler) is passed in explicitly as data.
-/

/-- A Python string, modelled as a list of characters. -/
abbrev Str := List Char

/-- Python `str.strip()`: remove leading and trailing whitespace. -/
def pyStrip (s : Str) : Str :=
  ((s.dropWhile Char.isWhitespace).reverse.dropWhile Char.isWhitespace).reverse

/-- Python truthiness test `not line.strip()`: the line is empty or whitespace-only. -/
def isBlank (line : Str) : Bool := (pyStrip line).isEmpty

/-- `get_indent` from `split_into_logical_blocks`:
`len(line) - len(line.lstrip(" "))`, the number of leading space characters. -/
def get_indent (line : Str) : Nat :=
  line.length - (line.dropWhile (fun c => c = ' ')).length

/-- The block-size heuristic inside `split_into_blocks_by_lines`, used when the
caller passes `block_size=None`: 3 for at most 40 non-empty lines, 4 for at
most 60, else 5. -/
def autoBlockSize (total_lines : Nat) : Nat :=
  if total_lines ≤ 40 then 3 else if total_lines ≤ 60 then 4 else 5

/-- The final-merge step of `split_into_blocks_by_lines`:
`blocks[-1].extend(current_block)` when `blocks` is non-empty, otherwise the
trailing block becomes the sole block. -/
def appendToLast : List (List Str) → List Str → List (List Str)
  | [], current => [current]
  | [b], current => [b ++ current]
  | b :: bs, current => b :: appendToLast bs current

/-- The accumulation loop of `split_into_blocks_by_lines`: blank lines are
skipped, each non-blank line is appended to `current_block`, a block is
emitted once it reaches `block_size` lines, and a non-empty trailing
`current_block` is merged by `appendToLast`. -/
def splitLoop (block_size : Nat) : List Str → List (List Str) → List Str → List (List Str)
  | [], blocks, current =>
    if current.isEmpty then blocks else appendToLast blocks current
  | line :: rest, blocks, current =>
    if isBlank line then splitLoop block_size rest blocks current
    else
      let cur := current ++ [line]
      if cur.length = block_size then splitLoop block_size rest (blocks ++ [cur]) []
      else splitLoop block_size rest blocks cur

/-- `CodeSortingApp.split_into_blocks_by_lines(lines, block_size)`: filter out
blank lines to count them, derive the block size when none was given, then run
the grouping loop over the original lines. -/
def split_into_blocks_by_lines (lines : List Str) (block_size : Option Nat) : List (List Str) :=
  let non_empty_lines := lines.filter (fun l => !(isBlank l))
  let bs := match block_size with
    | some b => b
    | none => autoBlockSize non_empty_lines.length
  splitLoop bs lines [] []

/-- `"".join(block)`: the rendered text of one fragment, exactly the string
placed into the list widget for that block. -/
def renderBlock (block : List Str) : Str := block.flatten

/-- `CodeSortingApp.check_order`: the widget item texts are compared, as a
list, against the joined canonical blocks. -/
def check_order (user_blocks : List Str) (correct_order : List (List Str)) : Bool :=
  user_blocks == correct_order.map renderBlock

/-- The keyword tuple tested by `split_into_logical_blocks`. -/
def blockKeywords : List Str :=
  ["def ", "if ", "for ", "while ", "try", "except", "else", "elif", "with "].map String.toList

/-- `line.strip().startswith(("def ", "if ", ...))`. -/
def isKeywordLine (line : Str) : Bool :=
  blockKeywords.any (fun k => k.isPrefixOf (pyStrip line))

/-- The loop condition of the inner `while` of `split_into_logical_blocks`:
the line is blank or indented strictly deeper than the header. -/
def deeperOrBlank (indent : Nat) (l : Str) : Bool :=
  isBlank l || decide (indent < get_indent l)

/-- The inner `while` of `split_into_logical_blocks`: starting after a keyword
header with indentation `indent`, consume every following line that is blank or
indented strictly deeper than the header; return the consumed lines and the
remaining lines. -/
def consume (indent : Nat) : List Str → List Str × List Str
  | [] => ([], [])
  | l :: ls =>
    if deeperOrBlank indent l then
      (l :: (consume indent ls).1, (consume indent ls).2)
    else ([], l :: ls)

/-- `CodeSortingApp.split_into_logical_blocks`: blank lines between blocks are
skipped, a keyword header opens a block that absorbs the following run of
blank-or-deeper-indented lines, and any other non-blank line is a block of its
own. -/
def split_into_logical_blocks : List Str → List (List Str)
  | [] => []
  | line :: rest =>
    if isBlank line then split_into_logical_blocks rest
    else if isKeywordLine line then
      (line :: (consume (get_indent line) rest).1) ::
        split_into_logical_blocks (consume (get_indent line) rest).2
    else [line] :: split_into_logical_blocks rest
termination_by ls => ls.length
decreasing_by
  all_goals simp only [List.length_cons]
  · omega
  · have h : ∀ (i : Nat) (ls : List Str), (consume i ls).2.length ≤ ls.length := by
      intro i ls
      induction ls with
      | nil => simp [consume]
      | cons l ls ih =>
        by_cases hc : deeperOrBlank i l = true
        · simp only [consume, hc, if_true]
          exact Nat.le_succ_of_le ih
        · simp [consume, hc]
    exact Nat.lt_succ_of_le (h _ _)
  · omega

/-- Swap the elements at positions `i` and `j`, as in `x[i], x[j] = x[j], x[i]`. -/
def listSwap {α : Type} (l : List α) (i j : Nat) : List α :=
  match l[i]?, l[j]? with
  | some a, some b => (l.set i b).set j a
  | _, _ => l

/-- The Fisher-Yates loop of CPython `random.shuffle`: for index `i` from
`n - 1` down to `1`, draw `j` uniformly below `i + 1` and swap positions `i`
and `j`. The draws are supplied as a function; taking them modulo `i + 2`
records that `randbelow(i + 1)` is always in range. -/
def fyAux {α : Type} (rand : Nat → Nat) : Nat → List α → List α
  | 0, l => l
  | i + 1, l => fyAux rand i (listSwap l (i + 1) (rand (i + 1) % (i + 2)))

/-- `random.shuffle(x)` with an explicit random source. -/
def pyShuffle {α : Type} (rand : Nat → Nat) (l : List α) : List α :=
  fyAux rand (l.length - 1) l

/-- One drag-and-drop step of the list widget (`InternalMove`): remove the
item at position `i` and re-insert it at position `j`. -/
def moveItem {α : Type} (l : List α) (i j : Nat) : List α :=
  match l[i]? with
  | none => l
  | some a => (l.eraseIdx i).insertIdx (min j (l.eraseIdx i).length) a

/-- A sequence of drag-and-drop reorderings applied to the widget contents. -/
def applyMoves {α : Type} (moves : List (Nat × Nat)) (l : List α) : List α :=
  moves.foldl (fun acc m => moveItem acc m.1 m.2) l

/-- The mutable state of `CodeSortingApp` that the puzzle logic touches: the
list-widget item texts (the working arrangement the user reorders), and the
attributes `code_blocks`, `correct_order` and `current_file`. -/
structure AppState where
  list_items : List Str
  code_blocks : List (List Str)
  correct_order : List (List Str)
  current_file : Str
  deriving DecidableEq

/-- The freshly constructed state of `CodeSortingApp.__init__`: no widget
items, no blocks, no file. -/
def emptyState : AppState :=
  { list_items := [], code_blocks := [], correct_order := [], current_file := [] }

/-- The user-visible outcome of `load_code_by_language_and_difficulty`: the
two error dialogs carry distinct messages, the success path loads a puzzle. -/
inductive LoadOutcome where
  | folderNotFound
  | catalogEmpty
  | loaded
  deriving DecidableEq

/-- The candidate filter inside `load_code_by_language_and_difficulty`:
`[f for f in os.listdir(folder) if f.endswith(".txt")]`. -/
def eligibleFiles (entries : List Str) : List Str :=
  entries.filter (fun f => (".txt".toList).isSuffixOf f)

/-- `CodeSortingApp.load_code_by_language_and_difficulty`, with the OS boundary
made explicit: `folder` is `none` when `os.path.exists` fails, otherwise the
directory listing; `pick` models `random.choice`; `rand` drives
`random.shuffle`; `readFile` gives the lines of a file. The list widget is
cleared first, then the two error checks run, then the puzzle is built. -/
def load_code_by_language_and_difficulty (folder : Option (List Str)) (pick : Nat)
    (rand : Nat → Nat) (readFile : Str → List Str) (st : AppState) :
    AppState × LoadOutcome :=
  let cleared := { st with list_items := [] }
  match folder with
  | none => (cleared, .folderNotFound)
  | some entries =>
    let files := eligibleFiles entries
    if files.isEmpty then (cleared, .catalogEmpty)
    else
      let current_file := files.getD (pick % files.length) []
      let lines := readFile current_file
      let code_blocks := split_into_blocks_by_lines lines (some 3)
      let correct_order := code_blocks
      let shuffled := pyShuffle rand code_blocks
      ({ list_items := shuffled.map renderBlock,
         code_blocks := shuffled,
         correct_order := correct_order,
         current_file := current_file }, .loaded)

/-- The observable result of the compiled-language execution path: captured
output text, captured error text, and whether a process was spawned. -/
structure ExecutionResult where
  output : Str
  errors : Str
  spawned : Bool
  deriving DecidableEq

/-- Python substring test `pat in s`. -/
def containsSub (pat s : Str) : Bool :=
  s.tails.any (fun t => pat.isPrefixOf t)

/-- Python `s.replace(pat, repl)`: replace every occurrence, scanning left to
right without overlap. -/
def replaceAll : Str → Str → Str → Str
  | [], _, s => s
  | p :: ps, repl, s =>
    match s with
    | [] => []
    | c :: cs =>
      if (p :: ps).isPrefixOf (c :: cs) then
        repl ++ replaceAll (p :: ps) repl (cs.drop ps.length)
      else c :: replaceAll (p :: ps) repl cs
termination_by _ _ s => s.length
decreasing_by
  all_goals simp only [List.length_cons, List.length_drop]
  · omega
  · omega

/-- The text substituted for `return 0;` by `_run_cpp_code`. -/
def pauseReturn : Str :=
  ("std::cout << \"\\nPress Enter to exit...\"; std::cin.ignore(); std::cin.get();\n    return 0;").toList

/-- The text appended by `_run_cpp_code` when no `return 0;` occurs. -/
def pauseAppended : Str :=
  ("\nstd::cout << \"\\nPress Enter to exit...\"; std::cin.ignore(); std::cin.get();\n").toList

/-- The `return 0;` pattern searched for by `_run_cpp_code`. -/
def returnZero : Str := ("return 0;").toList

/-- The pause-injection step of `_run_cpp_code`. -/
def injectPause (code : Str) : Str :=
  if containsSub returnZero code then replaceAll returnZero pauseReturn code
  else code ++ pauseAppended

/-- `CodeSortingApp._run_cpp_code`: inject the pause, hand the source to the
compiler (modelled as a function from source text to return code and captured
standard-error text), and on a non-zero return code show the diagnostics
without spawning anything; otherwise spawn the executable. -/
def _run_cpp_code (code : Str) (compiler : Str → Int × Str) : ExecutionResult :=
  let cpp_code := injectPause code
  let r := compiler cpp_code
  if r.1 ≠ 0 then { output := [], errors := r.2, spawned := false }
  else { output := [], errors := [], spawned := true }

/-- `CodeSortingApp.run_code` up to the language dispatch: compare the widget
item texts with the joined canonical blocks; on mismatch stop, otherwise join
the widget texts with a newline separator into the source text handed to the
execution sandbox. -/
def run_code (user_blocks : List Str) (correct_order : List (List Str)) : Option Str :=
  if user_blocks = correct_order.map renderBlock then
    some (List.intercalate ['\n'] user_blocks)
  else none

/-- Modelled from the spec: the grouping of the non-blank lines into
consecutive groups of exactly `bs` lines, the remainder forming a final short
group. Used to state the documented trailing-merge rule of
`split_into_blocks_by_lines`. -/
def groupsOf (bs : Nat) (ls : List Str) : List (List Str) :=
  if ls = [] then []
  else if bs = 0 ∨ ls.length ≤ bs then [ls]
  else ls.take bs :: groupsOf bs (ls.drop bs)
termination_by ls.length
decreasing_by simp only [List.length_drop]; omega

/-- Modelled from the spec: a trailing group shorter than `bs` is appended to
the last complete group; a sole short group stands alone. -/
def mergeTail (bs : Nat) : List (List Str) → List (List Str)
  | [] => []
  | [g] => [g]
  | [g, h] => if h.length < bs then [g ++ h] else [g, h]
  | g :: gs => g :: mergeTail bs gs

/-- Accumulator-passing view of the grouping loop: feed the groups one by one
into the block list, merging a final short group via `appendToLast`. -/
def assemble (bs : Nat) : List (List Str) → List (List Str) → List (List Str)
  | blocks, [] => blocks
  | blocks, [g] => if g.length < bs then appendToLast blocks g else blocks ++ [g]
  | blocks, g :: gs => assemble bs (blocks ++ [g]) gs

/-! Claim theorems and supporting lemmas. -/

/-- C8 counterexample: a file whose name does not end in ".txt" is present in
the folder listing yet excluded from the candidate pool. -/
theorem c8_counterexample :
    ("prog.py").toList ∈ [("prog.py").toList] ∧
    ("prog.py").toList ∉ eligibleFiles [("prog.py").toList] := by decide

/-- C8 amended: a file in the language/difficulty folder is an eligible
candidate for random selection iff its name ends with ".txt"; every other
file is excluded from the pool. -/
theorem c8_eligible_iff (entries : List Str) (f : Str) :
    f ∈ eligibleFiles entries ↔ f ∈ entries ∧ (".txt".toList).isSuffixOf f := by
  simp [eligibleFiles, List.mem_filter]

/-- C7: whenever the compiler reports a non-zero return code on the
pause-injected source, `_run_cpp_code` carries the compiler diagnostics as the
error payload with empty output, spawns no process, and the payload is
non-empty whenever the diagnostics are. -/
theorem c7_compile_failure (code : Str) (compiler : Str → Int × Str)
    (h : (compiler (injectPause code)).1 ≠ 0) :
    (_run_cpp_code code compiler).spawned = false ∧
    (_run_cpp_code code compiler).output = [] ∧
    (_run_cpp_code code compiler).errors = (compiler (injectPause code)).2 ∧
    ((compiler (injectPause code)).2 ≠ [] → (_run_cpp_code code compiler).errors ≠ []) := by
  simp [_run_cpp_code, h]

/-- C7 witness: a compiler that always fails with diagnostics "boom". -/
theorem c7_witness :
    (_run_cpp_code ("x".toList) (fun _ => ((1 : Int), "boom".toList))).spawned = false ∧
    (_run_cpp_code ("x".toList) (fun _ => ((1 : Int), "boom".toList))).errors = "boom".toList :=
  ⟨(c7_compile_failure ("x".toList) (fun _ => ((1 : Int), "boom".toList)) (by decide)).1,
   (c7_compile_failure ("x".toList) (fun _ => ((1 : Int), "boom".toList)) (by decide)).2.2.1⟩

/-- C1 counterexample: with seven identical lines the canonical blocks are a
three-line and a four-line block; swapping them is a working arrangement that
is a permutation with byte-identical concatenated text, yet `check_order`
rejects it. -/
theorem c1_counterexample :
    (((split_into_blocks_by_lines (List.replicate 7 ("a\n".toList)) (some 3)).map
        renderBlock).reverse).flatten =
      ((split_into_blocks_by_lines (List.replicate 7 ("a\n".toList)) (some 3)).map
        renderBlock).flatten ∧
    (((split_into_blocks_by_lines (List.replicate 7 ("a\n".toList)) (some 3)).map
        renderBlock).reverse).Perm
      ((split_into_blocks_by_lines (List.replicate 7 ("a\n".toList)) (some 3)).map
        renderBlock) ∧
    check_order
      (((split_into_blocks_by_lines (List.replicate 7 ("a\n".toList)) (some 3)).map
        renderBlock).reverse)
      (split_into_blocks_by_lines (List.replicate 7 ("a\n".toList)) (some 3)) = false :=
  ⟨by decide, List.reverse_perm _, by decide⟩

/-- C1 amended: `check_order` accepts exactly the arrangements whose list of
rendered fragment texts equals the canonical rendered list elementwise and in
order; acceptance implies byte-identical concatenated text, but concatenated
equality alone is not sufficient. -/
theorem c1_check_order_iff (user_blocks : List Str) (correct_order : List (List Str)) :
    (check_order user_blocks correct_order = true ↔
      user_blocks = correct_order.map renderBlock) ∧
    (check_order user_blocks correct_order = true →
      user_blocks.flatten = (correct_order.map renderBlock).flatten) := by
  constructor
  · simp [check_order]
  · intro h
    have he : user_blocks = correct_order.map renderBlock := by simpa [check_order] using h
    rw [he]

/-- C1 witness: a fully solved arrangement is accepted and concatenations
agree. -/
theorem c1_witness :
    check_order ["ab".toList] [["a".toList, "b".toList]] = true ∧
    (["ab".toList] : List Str).flatten =
      (([["a".toList, "b".toList]].map renderBlock) : List Str).flatten :=
  ⟨by decide,
   (c1_check_order_iff ["ab".toList] [["a".toList, "b".toList]]).2 (by decide)⟩

/-- C6 counterexample: loading with a missing folder clears the list widget,
so the prior session state is not left unmodified. -/
theorem c6_counterexample :
    (load_code_by_language_and_difficulty none 0 (fun _ => 0) (fun _ => [])
        { list_items := [['x']], code_blocks := [[['x']]],
          correct_order := [[['x']]], current_file := [] }).1 ≠
      { list_items := [['x']], code_blocks := [[['x']]],
        correct_order := [[['x']]], current_file := ([] : Str) } := by decide

/-- C6 amended: the missing-folder and empty-folder cases produce distinct,
non-crashing outcomes and leave `code_blocks`, `correct_order` and
`current_file` unmodified; the displayed working arrangement (the list-widget
items), however, is cleared before the checks run. -/
theorem c6_failure_cases (pick : Nat) (rand : Nat → Nat) (readFile : Str → List Str)
    (st : AppState) :
    (load_code_by_language_and_difficulty none pick rand readFile st =
      ({ st with list_items := [] }, LoadOutcome.folderNotFound)) ∧
    (∀ entries, eligibleFiles entries = [] →
      load_code_by_language_and_difficulty (some entries) pick rand readFile st =
        ({ st with list_items := [] }, LoadOutcome.catalogEmpty)) ∧
    LoadOutcome.folderNotFound ≠ LoadOutcome.catalogEmpty := by
  refine ⟨rfl, ?_, by decide⟩
  intro entries he
  simp [load_code_by_language_and_difficulty, he]

/-- C6 witness: an existing folder with one non-".txt" file yields the
empty-catalog outcome and an otherwise unchanged state. -/
theorem c6_witness :
    load_code_by_language_and_difficulty (some [("a.py").toList]) 0 (fun _ => 0)
        (fun _ => []) emptyState =
      ({ emptyState with list_items := [] }, LoadOutcome.catalogEmpty) :=
  (c6_failure_cases 0 (fun _ => 0) (fun _ => []) emptyState).2.1
    [("a.py").toList] (by decide)

/-- C9: the load path always hands the segmenter an explicit block size of 3:
the canonical order of a freshly loaded puzzle is the fixed-size split with
size 3 for every file, while the internal size heuristic would pick 4 for a
50-line file and produce a different segmentation there, so the heuristic is
never exercised by the load path. -/
theorem c9_fixed_block_size :
    (∀ entries pick rand readFile st, eligibleFiles entries ≠ [] →
      ((load_code_by_language_and_difficulty (some entries) pick rand readFile st).1).correct_order =
        split_into_blocks_by_lines
          (readFile ((eligibleFiles entries).getD (pick % (eligibleFiles entries).length) []))
          (some 3)) ∧
    (∀ lines, split_into_blocks_by_lines lines (some 3) = splitLoop 3 lines [] []) ∧
    autoBlockSize ((List.replicate 50 ("a\n".toList)).filter (fun l => !(isBlank l))).length = 4 ∧
    split_into_blocks_by_lines (List.replicate 50 ("a\n".toList)) (some 3) ≠
      split_into_blocks_by_lines (List.replicate 50 ("a\n".toList)) none := by
  refine ⟨?_, fun lines => rfl, by decide, by decide⟩
  intro entries pick rand readFile st h
  have he : (eligibleFiles entries).isEmpty = false := by
    simpa [List.isEmpty_iff] using h
  simp [load_code_by_language_and_difficulty, he]

/-- C9 witness: with a one-file catalog and a blank random source, the loaded
canonical order is the size-3 split of that file. -/
theorem c9_witness :
    ((load_code_by_language_and_difficulty (some [("a.txt").toList]) 0 (fun _ => 0)
        (fun _ => [("x\n").toList]) emptyState).1).correct_order =
      split_into_blocks_by_lines [("x\n").toList] (some 3) :=
  c9_fixed_block_size.1 [("a.txt").toList] 0 (fun _ => 0) (fun _ => [("x\n").toList])
    emptyState (by decide)

theorem head_swap_perm {α : Type} :
    ∀ (xs : List α) (m : Nat) (x b : α), xs[m]? = some b →
      (b :: xs.set m x).Perm (x :: xs)
  | [], _, _, _, h => by simp at h
  | y :: ys, 0, x, _, h => by
    simp only [List.getElem?_cons_zero, Option.some.injEq] at h
    subst h
    simpa using List.Perm.swap x y ys
  | y :: ys, m + 1, x, b, h => by
    simp only [List.getElem?_cons_succ] at h
    have ih := head_swap_perm ys m x b h
    have h1 : b :: (y :: ys).set (m + 1) x = b :: y :: ys.set m x := by simp
    rw [h1]
    exact ((List.Perm.swap y b _).trans (ih.cons y)).trans (List.Perm.swap x y ys)

theorem set_set_perm {α : Type} :
    ∀ (l : List α) (i j : Nat) (a b : α), l[i]? = some a → l[j]? = some b →
      ((l.set i b).set j a).Perm l
  | [], i, _, _, _, hi, _ => by simp at hi
  | x :: xs, 0, 0, a, b, hi, _ => by
    simp only [List.getElem?_cons_zero, Option.some.injEq] at hi
    subst hi
    simp only [List.set_cons_zero]
    exact List.Perm.refl _
  | x :: xs, 0, j + 1, a, b, hi, hj => by
    simp only [List.getElem?_cons_zero, Option.some.injEq] at hi
    simp only [List.getElem?_cons_succ] at hj
    subst hi
    simpa using head_swap_perm xs j x b hj
  | x :: xs, i + 1, 0, a, b, hi, hj => by
    simp only [List.getElem?_cons_zero, Option.some.injEq] at hj
    simp only [List.getElem?_cons_succ] at hi
    subst hj
    simpa using head_swap_perm xs i x a hi
  | x :: xs, i + 1, j + 1, a, b, hi, hj => by
    simp only [List.getElem?_cons_succ] at hi hj
    simpa using (set_set_perm xs i j a b hi hj).cons x

theorem listSwap_perm {α : Type} (l : List α) (i j : Nat) : (listSwap l i j).Perm l := by
  cases hi : l[i]? with
  | none => simp [listSwap, hi]
  | some a =>
    cases hj : l[j]? with
    | none => simp [listSwap, hi, hj]
    | some b => simpa [listSwap, hi, hj] using set_set_perm l i j a b hi hj

theorem fyAux_perm {α : Type} (rand : Nat → Nat) :
    ∀ (n : Nat) (l : List α), (fyAux rand n l).Perm l
  | 0, l => List.Perm.refl l
  | n + 1, l =>
    (fyAux_perm rand n _).trans (listSwap_perm l (n + 1) (rand (n + 1) % (n + 2)))

theorem pyShuffle_perm {α : Type} (rand : Nat → Nat) (l : List α) :
    (pyShuffle rand l).Perm l :=
  fyAux_perm rand (l.length - 1) l

theorem cons_eraseIdx_perm {α : Type} :
    ∀ (l : List α) (i : Nat) (a : α), l[i]? = some a → (a :: l.eraseIdx i).Perm l
  | [], _, _, h => by simp at h
  | x :: xs, 0, _, h => by
    simp only [List.getElem?_cons_zero, Option.some.injEq] at h
    subst h
    simp [List.eraseIdx]
  | x :: xs, i + 1, a, h => by
    simp only [List.getElem?_cons_succ] at h
    have ih := cons_eraseIdx_perm xs i a h
    have h1 : (x :: xs).eraseIdx (i + 1) = x :: xs.eraseIdx i := by simp [List.eraseIdx]
    rw [h1]
    exact (List.Perm.swap x a _).trans (ih.cons x)

theorem moveItem_perm {α : Type} (l : List α) (i j : Nat) : (moveItem l i j).Perm l := by
  cases hi : l[i]? with
  | none => simp [moveItem, hi]
  | some a =>
    have h1 : ((l.eraseIdx i).insertIdx (min j (l.eraseIdx i).length) a).Perm
        (a :: l.eraseIdx i) :=
      List.perm_insertIdx a _ (Nat.min_le_right _ _)
    simpa [moveItem, hi] using h1.trans (cons_eraseIdx_perm l i a hi)

theorem applyMoves_perm {α : Type} (moves : List (Nat × Nat)) (l : List α) :
    (applyMoves moves l).Perm l := by
  induction moves generalizing l with
  | nil => exact List.Perm.refl l
  | cons m ms ih =>
    have h : applyMoves (m :: ms) l = applyMoves ms (moveItem l m.1 m.2) := rfl
    rw [h]
    exact (ih (moveItem l m.1 m.2)).trans (moveItem_perm l m.1 m.2)

/-- C2: after a successful load the shuffled `code_blocks` are a permutation
of `correct_order` and the widget arrangement a permutation of the canonical
rendered fragments, and this persists through any sequence of drag-and-drop
reorderings: the working set always carries exactly the canonical fragments,
none created, deleted or modified. -/
theorem c2_perm_invariant (entries : List Str) (pick : Nat) (rand : Nat → Nat)
    (readFile : Str → List Str) (st : AppState)
    (h : eligibleFiles entries ≠ []) :
    (((load_code_by_language_and_difficulty (some entries) pick rand readFile st).1).code_blocks).Perm
      (((load_code_by_language_and_difficulty (some entries) pick rand readFile st).1).correct_order) ∧
    (((load_code_by_language_and_difficulty (some entries) pick rand readFile st).1).list_items).Perm
      ((((load_code_by_language_and_difficulty (some entries) pick rand readFile st).1).correct_order).map
        renderBlock) ∧
    ∀ moves : List (Nat × Nat),
      (applyMoves moves
          (((load_code_by_language_and_difficulty (some entries) pick rand readFile st).1).list_items)).Perm
        ((((load_code_by_language_and_difficulty (some entries) pick rand readFile st).1).correct_order).map
          renderBlock) := by
  have he : (eligibleFiles entries).isEmpty = false := by
    simpa [List.isEmpty_iff] using h
  simp only [load_code_by_language_and_difficulty, he, Bool.false_eq_true, if_false]
  exact ⟨pyShuffle_perm _ _, (pyShuffle_perm _ _).map renderBlock,
    fun _ => (applyMoves_perm _ _).trans ((pyShuffle_perm _ _).map renderBlock)⟩

/-- C2 witness: a concrete two-line catalog file. -/
theorem c2_witness :
    (((load_code_by_language_and_difficulty (some [("a.txt").toList]) 0 (fun _ => 0)
        (fun _ => [("x\n").toList, ("y\n").toList]) emptyState).1).code_blocks).Perm
      (((load_code_by_language_and_difficulty (some [("a.txt").toList]) 0 (fun _ => 0)
        (fun _ => [("x\n").toList, ("y\n").toList]) emptyState).1).correct_order) :=
  (c2_perm_invariant [("a.txt").toList] 0 (fun _ => 0)
    (fun _ => [("x\n").toList, ("y\n").toList]) emptyState (by decide)).1

theorem appendToLast_flatten :
    ∀ (blocks : List (List Str)) (current : List Str),
      (appendToLast blocks current).flatten = blocks.flatten ++ current
  | [], current => by simp [appendToLast]
  | [b], current => by simp [appendToLast]
  | b :: b2 :: bs, current => by
    have ih := appendToLast_flatten (b2 :: bs) current
    simp only [appendToLast, List.flatten_cons, ih, List.append_assoc]

theorem splitLoop_flatten (bs : Nat) (lines : List Str) :
    ∀ (blocks : List (List Str)) (current : List Str),
      (splitLoop bs lines blocks current).flatten =
        blocks.flatten ++ current ++ lines.filter (fun l => !(isBlank l)) := by
  induction lines with
  | nil =>
    intro blocks current
    by_cases h : current.isEmpty
    · have hc : current = [] := by simpa [List.isEmpty_iff] using h
      simp [splitLoop, h, hc]
    · simp [splitLoop, h, appendToLast_flatten]
  | cons l ls ih =>
    intro blocks current
    by_cases h : isBlank l
    · simp only [splitLoop, h, if_true, List.filter_cons, Bool.not_true,
        Bool.false_eq_true, if_false]
      exact ih blocks current
    · simp only [splitLoop, h, Bool.false_eq_true, if_false, List.filter_cons,
        Bool.not_false, if_true]
      by_cases hlen : (current ++ [l]).length = bs
      · simp only [hlen, if_true, ih, List.flatten_append, List.flatten_cons]
        simp [List.append_assoc]
      · simp only [hlen, if_false, ih]
        simp [List.append_assoc]

/-- C4: flattening the fixed-size segmentation, in emitted order, yields
exactly the non-blank input lines in their original order: no line is
duplicated, dropped or reordered. This holds for an explicit block size as
well as for the derived one. -/
theorem c4_round_trip (lines : List Str) (block_size : Option Nat)
    (_h : ∃ l ∈ lines, isBlank l = false) :
    (split_into_blocks_by_lines lines block_size).flatten =
      lines.filter (fun l => !(isBlank l)) := by
  cases block_size with
  | none => simpa [split_into_blocks_by_lines] using splitLoop_flatten _ lines [] []
  | some bs => simpa [split_into_blocks_by_lines] using splitLoop_flatten bs lines [] []

/-- C4 witness: the five-line example round-trips to its non-blank lines. -/
theorem c4_witness :
    (split_into_blocks_by_lines (["a\n", "\n", "b\n", "c\n", "d\n"].map String.toList)
        (some 3)).flatten =
      (["a\n", "\n", "b\n", "c\n", "d\n"].map String.toList).filter
        (fun l => !(isBlank l)) :=
  c4_round_trip (["a\n", "\n", "b\n", "c\n", "d\n"].map String.toList) (some 3)
    (by decide)

theorem splitLoop_filter (bs : Nat) (lines : List Str) :
    ∀ (blocks : List (List Str)) (current : List Str),
      splitLoop bs lines blocks current =
        splitLoop bs (lines.filter (fun l => !(isBlank l))) blocks current := by
  induction lines with
  | nil => intro blocks current; rfl
  | cons l ls ih =>
    intro blocks current
    by_cases h : isBlank l
    · simp only [List.filter_cons, h, Bool.not_true, Bool.false_eq_true, if_false]
      simp only [splitLoop, h, if_true]
      exact ih blocks current
    · simp only [List.filter_cons, h, Bool.not_false, if_true]
      simp only [splitLoop, h, Bool.false_eq_true, if_false]
      by_cases hlen : (current ++ [l]).length = bs
      · simp only [hlen, if_true]
        exact ih _ _
      · simp only [hlen, if_false]
        exact ih _ _

theorem splitLoop_small (bs : Nat) (ls : List Str) :
    ∀ (blocks : List (List Str)) (current : List Str),
      (∀ l ∈ ls, isBlank l = false) →
      current.length + ls.length < bs →
      splitLoop bs ls blocks current =
        if (current ++ ls).isEmpty then blocks
        else appendToLast blocks (current ++ ls) := by
  induction ls with
  | nil => intro blocks current _ _; simp [splitLoop]
  | cons l ls ih =>
    intro blocks current hnb hlen
    have hl : isBlank l = false := hnb l (List.mem_cons_self l ls)
    have hcur : ¬((current ++ [l]).length = bs) := by
      simp only [List.length_append, List.length_cons, List.length_nil]
      simp only [List.length_cons] at hlen
      omega
    simp only [splitLoop, hl, Bool.false_eq_true, if_false, hcur]
    rw [ih blocks (current ++ [l]) (fun x hx => hnb x (List.mem_cons_of_mem l hx))
      (by simp only [List.length_append, List.length_cons, List.length_nil]
          simp only [List.length_cons] at hlen
          omega)]
    have he1 : ((current ++ [l]) ++ ls).isEmpty = false := by simp
    have he2 : (current ++ l :: ls).isEmpty = false := by simp
    rw [he1, he2]
    simp only [Bool.false_eq_true, if_false, List.append_assoc, List.cons_append,
      List.nil_append]

theorem splitLoop_fill (bs : Nat) (ls : List Str) :
    ∀ (blocks : List (List Str)) (current : List Str),
      (∀ l ∈ ls, isBlank l = false) →
      current.length < bs →
      bs ≤ current.length + ls.length →
      splitLoop bs ls blocks current =
        splitLoop bs (ls.drop (bs - current.length))
          (blocks ++ [current ++ ls.take (bs - current.length)]) [] := by
  induction ls with
  | nil =>
    intro blocks current _ h1 h2
    exfalso
    simp only [List.length_nil, Nat.add_zero] at h2
    omega
  | cons l ls ih =>
    intro blocks current hnb h1 h2
    have hl : isBlank l = false := hnb l (List.mem_cons_self l ls)
    by_cases hlen : (current ++ [l]).length = bs
    · have hks : bs - current.length = 1 := by
        simp only [List.length_append, List.length_cons, List.length_nil] at hlen
        omega
      rw [hks]
      simp only [List.drop_succ_cons, List.drop_zero, List.take_succ_cons, List.take_zero]
      simp only [splitLoop, hl, Bool.false_eq_true, if_false, hlen, if_true]
    · have hcl : (current ++ [l]).length < bs := by
        simp only [List.length_append, List.length_cons, List.length_nil] at hlen ⊢
        omega
      have hstep : splitLoop bs (l :: ls) blocks current = splitLoop bs ls blocks (current ++ [l]) := by
        simp only [splitLoop, hl, Bool.false_eq_true, if_false, hlen]
      rw [hstep]
      rw [ih blocks (current ++ [l]) (fun x hx => hnb x (List.mem_cons_of_mem l hx)) hcl
        (by simp only [List.length_append, List.length_cons, List.length_nil]
            simp only [List.length_cons] at h2
            omega)]
      have harith : bs - current.length = (bs - (current ++ [l]).length) + 1 := by
        simp only [List.length_append, List.length_cons, List.length_nil]
        omega
      rw [harith]
      simp only [List.drop_succ_cons, List.take_succ_cons, List.append_assoc,
        List.cons_append, List.nil_append]

theorem groupsOf_ne_nil (bs : Nat) (ls : List Str) (h : ls ≠ []) : groupsOf bs ls ≠ [] := by
  rw [groupsOf]
  simp only [h, if_false]
  split <;> simp

theorem splitLoop_groups (bs : Nat) (hbs : 0 < bs) (ls : List Str)
    (hnb : ∀ l ∈ ls, isBlank l = false) (blocks : List (List Str)) :
    splitLoop bs ls blocks [] = assemble bs blocks (groupsOf bs ls) := by
  by_cases hnil : ls = []
  · subst hnil
    rw [groupsOf]
    simp [splitLoop, assemble]
  · by_cases hsmall : ls.length ≤ bs
    · by_cases heq : ls.length = bs
      · rw [splitLoop_fill bs ls blocks [] hnb (by simpa using hbs)
          (by simp only [List.length_nil, Nat.zero_add]; omega)]
        have hdrop : ls.drop (bs - List.length ([] : List Str)) = [] :=
          List.drop_eq_nil_of_le (by simp; omega)
        have htake : ls.take (bs - List.length ([] : List Str)) = ls :=
          List.take_of_length_le (by simp; omega)
        rw [hdrop, htake]
        rw [groupsOf]
        simp only [hnil, if_false, hsmall, or_true, if_true]
        have hlt : ¬(ls.length < bs) := by omega
        simp [splitLoop, assemble, hlt]
      · have hlen : ls.length < bs := by omega
        rw [splitLoop_small bs ls blocks [] hnb (by simpa using hlen)]
        rw [groupsOf]
        simp only [hnil, if_false, hsmall, or_true, if_true]
        have hie : (([] : List Str) ++ ls).isEmpty = false := by
          simp [List.isEmpty_iff, hnil]
        rw [hie]
        simp [assemble, hlen]
    · rw [splitLoop_fill bs ls blocks [] hnb (by simpa using hbs)
        (by simp only [List.length_nil, Nat.zero_add]; omega)]
      simp only [List.length_nil, Nat.sub_zero, List.nil_append]
      have hdl : (ls.drop bs).length < ls.length := by
        simp only [List.length_drop]
        omega
      rw [splitLoop_groups bs hbs (ls.drop bs)
        (fun x hx => hnb x (List.mem_of_mem_drop hx)) (blocks ++ [ls.take bs])]
      rw [show groupsOf bs ls = ls.take bs :: groupsOf bs (ls.drop bs) by
        rw [groupsOf]
        simp only [hnil, if_false]
        have : ¬(bs = 0 ∨ ls.length ≤ bs) := by omega
        simp [this]]
      have hne : groupsOf bs (ls.drop bs) ≠ [] := by
        apply groupsOf_ne_nil
        intro hcon
        have := congrArg List.length hcon
        simp only [List.length_drop, List.length_nil] at this
        omega
      cases hgs : groupsOf bs (ls.drop bs) with
      | nil => exact absurd hgs hne
      | cons g2 gs2 => simp [assemble]
termination_by ls.length
decreasing_by simp only [List.length_drop]; omega

theorem appendToLast_append (g x : List Str) :
    ∀ (ys : List (List Str)), appendToLast (ys ++ [g]) x = ys ++ [g ++ x] := by
  intro ys
  induction ys with
  | nil => simp [appendToLast]
  | cons y ys ih =>
    cases ys with
    | nil => simp [appendToLast]
    | cons y2 ys2 =>
      simp only [List.cons_append, appendToLast, List.append_eq] at ih ⊢
      rw [ih]

theorem assemble_append (bs : Nat) :
    ∀ (gs : List (List Str)) (blocks : List (List Str)) (g : List Str), gs ≠ [] →
      assemble bs (blocks ++ [g]) gs = blocks ++ assemble bs [g] gs
  | [], _, _, h => absurd rfl h
  | [h1], blocks, g, _ => by
    by_cases hlt : h1.length < bs
    · simp [assemble, hlt, appendToLast_append, appendToLast]
    · simp [assemble, hlt]
  | h1 :: h2 :: t, blocks, g, _ => by
    have ih := assemble_append bs (h2 :: t) (blocks ++ [g]) h1 (by simp)
    have ih2 := assemble_append bs (h2 :: t) [g] h1 (by simp)
    simp only [assemble]
    rw [ih, ih2]
    simp [List.append_assoc]

theorem assemble_mergeTail (bs : Nat) :
    ∀ (rest : List (List Str)) (g : List Str), rest ≠ [] →
      assemble bs [g] rest = mergeTail bs (g :: rest)
  | [], _, h => absurd rfl h
  | [h1], g, _ => by
    by_cases hlt : h1.length < bs
    · simp [assemble, mergeTail, hlt, appendToLast]
    · simp [assemble, mergeTail, hlt]
  | h1 :: h2 :: t, g, _ => by
    have ha : assemble bs [g, h1] (h2 :: t) = [g] ++ assemble bs [h1] (h2 :: t) := by
      simpa using assemble_append bs (h2 :: t) [g] h1 (by simp)
    have ih := assemble_mergeTail bs (h2 :: t) h1 (by simp)
    simp only [assemble, List.cons_append, List.nil_append]
    rw [ha, ih]
    simp [mergeTail]

theorem splitLoop_mergeTail (bs : Nat) (hbs : 0 < bs) (ls : List Str)
    (hnb : ∀ l ∈ ls, isBlank l = false) :
    splitLoop bs ls [] [] = mergeTail bs (groupsOf bs ls) := by
  rw [splitLoop_groups bs hbs ls hnb []]
  cases hgs : groupsOf bs ls with
  | nil => simp [assemble, mergeTail]
  | cons g rest =>
    cases rest with
    | nil =>
      by_cases h : g.length < bs <;> simp [assemble, mergeTail, h, appendToLast]
    | cons h2 t =>
      have hstep : assemble bs ([] : List (List Str)) (g :: h2 :: t) =
          assemble bs ([] ++ [g]) (h2 :: t) := by
        simp [assemble]
      rw [hstep]
      simp only [List.nil_append]
      exact assemble_mergeTail bs (h2 :: t) g (by simp)

/-- C3: the fixed-size segmenter obeys the trailing-merge rule: grouping the
non-blank lines into groups of `bs`, a trailing group of fewer than `bs` lines
is appended to the last completed fragment, and becomes the sole fragment when
no fragment was completed. In particular the five-line example with block size
3 yields the single merged fragment. -/
theorem c3_trailing_merge (lines : List Str) (bs : Nat) (hbs : 0 < bs) :
    split_into_blocks_by_lines lines (some bs) =
      mergeTail bs (groupsOf bs (lines.filter (fun l => !(isBlank l)))) ∧
    split_into_blocks_by_lines (["a\n", "\n", "b\n", "c\n", "d\n"].map String.toList)
        (some 3) =
      [["a\n", "b\n", "c\n", "d\n"].map String.toList] := by
  constructor
  · show splitLoop bs lines [] [] = _
    rw [splitLoop_filter bs lines [] []]
    exact splitLoop_mergeTail bs hbs _
      (fun l hl => by simpa using (List.mem_filter.mp hl).2)
  · decide

/-- C3 witness: the trailing-merge rule at block size 1 and the concrete
five-line example. -/
theorem c3_witness :
    split_into_blocks_by_lines (["a\n", "\n", "b\n", "c\n", "d\n"].map String.toList)
        (some 3) =
      [["a\n", "b\n", "c\n", "d\n"].map String.toList] :=
  (c3_trailing_merge [] 1 (by decide)).2

theorem consume_eq_span (indent : Nat) (ls : List Str) :
    consume indent ls =
      (ls.takeWhile (deeperOrBlank indent), ls.dropWhile (deeperOrBlank indent)) := by
  induction ls with
  | nil => rfl
  | cons l ls ih =>
    by_cases h : deeperOrBlank indent l
    · simp [consume, h, List.takeWhile_cons, List.dropWhile_cons, ih]
    · simp [consume, h, List.takeWhile_cons, List.dropWhile_cons]

/-- C5: a non-blank line whose stripped text starts with a block keyword opens
a fragment holding exactly the header and the entire following contiguous run
of lines that are blank or indented strictly deeper than the header, so a
keyword block is never split across fragments; a non-blank, non-keyword line
becomes a single-line fragment of its own. -/
theorem c5_block_atomicity :
    (∀ line rest, isBlank line = false → isKeywordLine line = true →
      split_into_logical_blocks (line :: rest) =
        (line :: rest.takeWhile (deeperOrBlank (get_indent line))) ::
          split_into_logical_blocks
            (rest.dropWhile (deeperOrBlank (get_indent line)))) ∧
    (∀ indent l, deeperOrBlank indent l = true ↔
      (isBlank l = true ∨ indent < get_indent l)) ∧
    (∀ line rest, isBlank line = false → isKeywordLine line = false →
      split_into_logical_blocks (line :: rest) =
        [line] :: split_into_logical_blocks rest) := by
  refine ⟨?_, ?_, ?_⟩
  · intro line rest hb hk
    simp [split_into_logical_blocks, hb, hk, consume_eq_span]
  · intro indent l
    simp [deeperOrBlank]
  · intro line rest hb hk
    simp [split_into_logical_blocks, hb, hk]

/-- C5 witness: a concrete function header with one indented body line. -/
theorem c5_witness :
    split_into_logical_blocks
        (("def f():\n").toList :: ["    x = 1\n", "y\n"].map String.toList) =
      (("def f():\n").toList ::
        (["    x = 1\n", "y\n"].map String.toList).takeWhile
          (deeperOrBlank (get_indent (("def f():\n").toList)))) ::
        split_into_logical_blocks
          ((["    x = 1\n", "y\n"].map String.toList).dropWhile
            (deeperOrBlank (get_indent (("def f():\n").toList)))) :=
  c5_block_atomicity.1 (("def f():\n").toList)
    (["    x = 1\n", "y\n"].map String.toList) (by decide) (by decide)

theorem intercalate_cons_cons (sep x y : Str) (t : List Str) :
    List.intercalate sep (x :: y :: t) = x ++ sep ++ List.intercalate sep (y :: t) := by
  simp [List.intercalate, List.intersperse_cons_cons, List.append_assoc]

theorem intercalate_singleton (sep x : Str) : List.intercalate sep [x] = x := by
  simp [List.intercalate]

theorem intercalate_newline_length :
    ∀ (ts : List Str), ts ≠ [] →
      (List.intercalate ['\n'] ts).length = ts.flatten.length + (ts.length - 1)
  | [], h => absurd rfl h
  | [x], _ => by simp [intercalate_singleton]
  | x :: y :: t, _ => by
    have ih := intercalate_newline_length (y :: t) (by simp)
    rw [intercalate_cons_cons]
    simp only [List.length_append, ih, List.flatten_cons, List.length_cons]
    simp
    omega

theorem containsSub_of (pat s t : Str) (hsuf : t <:+ s) (hpre : pat <+: t) :
    containsSub pat s = true := by
  simp only [containsSub, List.any_eq_true]
  exact ⟨t, (List.mem_tails t s).2 hsuf, List.isPrefixOf_iff_prefix.2 hpre⟩

/-- C10: when the arrangement matches, `run_code` hands the sandbox the widget
texts joined with a newline separator, not their plain concatenation: with at
least two fragments, each ending in a line terminator, the executed source has
one extra character per fragment boundary, differs from the concatenation that
verification compared, and contains two consecutive newlines, i.e. an extra
blank line between adjacent fragments. -/
theorem c10_extra_blank_lines (ts : List Str) (correct_order : List (List Str))
    (hmatch : ts = correct_order.map renderBlock)
    (hlen : 2 ≤ ts.length)
    (hend : ∀ t ∈ ts, ∃ t0, t = t0 ++ ['\n']) :
    run_code ts correct_order = some (List.intercalate ['\n'] ts) ∧
    (List.intercalate ['\n'] ts).length = ts.flatten.length + (ts.length - 1) ∧
    List.intercalate ['\n'] ts ≠ ts.flatten ∧
    containsSub ['\n', '\n'] (List.intercalate ['\n'] ts) = true := by
  have hne : ts ≠ [] := by
    intro hc
    rw [hc] at hlen
    simp at hlen
  refine ⟨by simp [run_code, hmatch], intercalate_newline_length ts hne, ?_, ?_⟩
  · intro heq
    have hl := intercalate_newline_length ts hne
    rw [heq] at hl
    omega
  · match ts, hlen, hend with
    | t1 :: t2 :: rest, _, hend =>
      obtain ⟨t0, ht0⟩ := hend t1 (by simp)
      rw [intercalate_cons_cons, ht0]
      apply containsSub_of _ _ (['\n', '\n'] ++ List.intercalate ['\n'] (t2 :: rest))
      · exact ⟨t0, by simp [List.append_assoc]⟩
      · exact ⟨List.intercalate ['\n'] (t2 :: rest), rfl⟩

/-- C10 witness: two one-line fragments. -/
theorem c10_witness :
    run_code ["a\n".toList, "b\n".toList] [["a\n".toList], ["b\n".toList]] =
      some (List.intercalate ['\n'] ["a\n".toList, "b\n".toList]) ∧
    containsSub ['\n', '\n']
      (List.intercalate ['\n'] ["a\n".toList, "b\n".toList]) = true :=
  have h := c10_extra_blank_lines ["a\n".toList, "b\n".toList]
    [["a\n".toList], ["b\n".toList]] (by decide) (by decide)
    (by
      intro t ht
      simp only [List.mem_cons, List.not_mem_nil, or_false] at ht
      rcases ht with h1 | h1
      · exact ⟨['a'], by rw [h1]; rfl⟩
      · exact ⟨['b'], by rw [h1]; rfl⟩)
  ⟨h.1, h.2.2.2⟩
